import Mathlib

/-!
Shallow embedding of `exchange_rate_analyzer.py` (class `ExchangeRateAnalyzer`):
the two-tier cache (`get_cached_data` / `set_cached_data`), the per-day
fetch-with-retry loop inside `fetch_exchange_rates`, the date-range loop of
`fetch_exchange_rates`, and the gap-filling normalizer `preprocess_data`.

Modelling conventions:
- Rates are `ℚ` (values are only stored, compared and copied, never rounded).
- Calendar dates are `Nat` (days since an epoch); advancing one day is `+ 1`.
- Python dicts (`memory_cache`, `file_cache`) are association lists with the
  first binding for a key being the visible one; `dictSet` replaces in place,
  as a Python dict assignment does.  `save_file_cache` synchronously rewrites
  the whole durable file with `file_cache`, so the durable layer is identified
  with the `file` field.
- The network is an oracle: a per-day list (trace) of what each successive
  `requests.get` call yields.  `NetResult.exn` is a raised
  `requests.exceptions.RequestException` (timeout, connection error);
  `NetResult.resp st body` is a response with HTTP status `st` and decoded
  JSON `body`.  `Response.raise_for_status` raises `HTTPError` (a subclass of
  `RequestException`) exactly when `400 ≤ st < 600`, and `Response.ok` is
  `st < 400`, per the `requests` library.
- The retry loop consumes one trace element per iteration.  If the trace runs
  out while the loop would still iterate, the result is `Outcome.outOfTrace`:
  the loop is still running after the whole trace, which is how unbounded
  retrying (non-termination of the Python loop) is observed finitely.
-/

namespace ExchangeRateAnalyzer

abbrev Rate := ℚ

/-- Lookup in a Python dict modelled as an association list
(`d[k]` / `k in d`). -/
def dictGet : List (String × Rate) → String → Option Rate
  | [], _ => none
  | p :: ps, k => if p.1 = k then some p.2 else dictGet ps k

/-- Assignment `d[k] = v` on a Python dict: replace the binding in place if
the key is present, otherwise append a new binding. -/
def dictSet : List (String × Rate) → String → Rate → List (String × Rate)
  | [], k, v => [(k, v)]
  | p :: ps, k, v => if p.1 = k then (k, v) :: ps else p :: dictSet ps k v

/-- The two cache tiers of `ExchangeRateAnalyzer`: `memory` is
`self.memory_cache` (fast, in-process), `file` is `self.file_cache`, which
`save_file_cache` rewrites to disk on every `set_cached_data`, so it is also
the durable on-disk state. -/
structure Cache where
  memory : List (String × Rate)
  file : List (String × Rate)
deriving DecidableEq

/-- `get_cached_data` (lines 83-107): check the in-memory cache first; on a
file-cache hit, promote the value into the in-memory cache; otherwise report
`None`.  Returns the looked-up value and the (possibly updated) cache. -/
def get_cached_data (c : Cache) (key : String) : Option Rate × Cache :=
  match dictGet c.memory key with
  | some v => (some v, c)
  | none =>
    match dictGet c.file key with
    | some v => (some v, { c with memory := dictSet c.memory key v })
    | none => (none, c)

/-- `set_cached_data` (lines 130-144): write the pair into both the in-memory
and the file cache, then persist the file cache (`save_file_cache`). -/
def set_cached_data (c : Cache) (key : String) (v : Rate) : Cache :=
  { memory := dictSet c.memory key v, file := dictSet c.file key v }

/-- Decoded JSON body of a provider response: `success` models
`data.get('success', True)` (`none` when the key is absent), `rate` models
`data['rates'][self.target_currency]` (`none` when either lookup raises
`KeyError`). -/
structure ApiBody where
  success : Option Bool
  rate : Option Rate
deriving DecidableEq

/-- What one `requests.get` call yields. -/
inductive NetResult
  /-- `requests.get` raised a `requests.exceptions.RequestException`. -/
  | exn
  /-- a response arrived with HTTP status `status` and JSON body `body`. -/
  | resp (status : Nat) (body : ApiBody)
deriving DecidableEq

/-- Valid HTTP responses carry a three-digit status below 600; only for such
statuses do `raise_for_status` and `Response.ok` agree that exactly the
`400 ≤ st` range is an error. -/
def NetResult.wf : NetResult → Prop
  | .exn => True
  | .resp st _ => st < 600

instance : DecidablePred NetResult.wf := by
  intro r
  cases r <;> simp [NetResult.wf] <;> infer_instance

/-- How one day of `fetch_exchange_rates` ends. -/
inductive Outcome
  /-- a rate was obtained (from cache or network) and appended to `all_rates`. -/
  | success (rate : Rate)
  /-- the retry loop exhausted `max_attempts` transport-level failures:
  the day yields no rate (a gap). -/
  | exhausted
  /-- the body carried `success: false`: `break` out of the retry loop,
  the day yields no rate (a gap). -/
  | providerError
  /-- the `if not response.ok: return pd.DataFrame(...)` branch: the whole
  fetch returns an empty frame.  Dead for valid HTTP statuses. -/
  | aborted
  /-- the response trace was exhausted while the loop would still iterate:
  the Python loop is still retrying after that many calls. -/
  | outOfTrace
deriving DecidableEq

def Outcome.isSuccess : Outcome → Bool
  | .success _ => true
  | _ => false

/-- Result of processing one day: how it ended, the cache afterwards, how many
`requests.get` calls were issued, and the `time.sleep` durations (seconds)
in order. -/
structure RetryResult where
  outcome : Outcome
  cache : Cache
  calls : Nat
  delays : List Nat
deriving DecidableEq

/-- `max_attempts = 3` (line 166). -/
def maxAttempts : Nat := 3

/-- `backoff_time = 1` second (line 167). -/
def backoffTime : Nat := 1

/-- The inner retry loop of `fetch_exchange_rates` (lines 178-209) for one
cache-missed day, driven by the trace of network results.  Each iteration:
`requests.get` (consume one trace element; an exception goes to the
`RequestException` handler), `raise_for_status` (raises `HTTPError`, also a
`RequestException`, for `400 ≤ st < 600`), the dead `not response.ok` return,
then the body: `success` absent-or-true with the rate present appends, caches
and breaks; a missing rate (`KeyError`) only logs — `attempt` is NOT
incremented and the loop re-runs; `success: false` logs and breaks.  The
exception handler increments `attempt` and, if attempts remain, sleeps
`backoff_time * 2 ** attempt` seconds with the already-incremented value. -/
def retryLoop (key : String) (c : Cache) (attempt : Nat) : List NetResult → RetryResult
  | [] =>
    if attempt < maxAttempts then ⟨.outOfTrace, c, 0, []⟩ else ⟨.exhausted, c, 0, []⟩
  | r :: rest =>
    if attempt < maxAttempts then
      match r with
      | .exn =>
        let rr := retryLoop key c (attempt + 1) rest
        if attempt + 1 < maxAttempts then
          ⟨rr.outcome, rr.cache, rr.calls + 1, backoffTime * 2 ^ (attempt + 1) :: rr.delays⟩
        else
          ⟨rr.outcome, rr.cache, rr.calls + 1, rr.delays⟩
      | .resp status body =>
        if 400 ≤ status ∧ status < 600 then
          let rr := retryLoop key c (attempt + 1) rest
          if attempt + 1 < maxAttempts then
            ⟨rr.outcome, rr.cache, rr.calls + 1, backoffTime * 2 ^ (attempt + 1) :: rr.delays⟩
          else
            ⟨rr.outcome, rr.cache, rr.calls + 1, rr.delays⟩
        else if status < 400 then
          if body.success.getD true then
            match body.rate with
            | some v => ⟨.success v, set_cached_data c key v, 1, []⟩
            | none =>
              let rr := retryLoop key c attempt rest
              ⟨rr.outcome, rr.cache, rr.calls + 1, rr.delays⟩
          else ⟨.providerError, c, 1, []⟩
        else ⟨.aborted, c, 1, []⟩
    else ⟨.exhausted, c, 0, []⟩

/-- One day of the outer loop of `fetch_exchange_rates` (lines 169-212):
consult the cache; on a hit append the cached rate with zero network calls,
on a miss run the retry loop. -/
def processDay (c : Cache) (key : String) (trace : List NetResult) : RetryResult :=
  match get_cached_data c key with
  | (some v, c2) => ⟨.success v, c2, 0, []⟩
  | (none, c2) => retryLoop key c2 0 trace

def base_currency : String := "AUD"

def target_currency : String := "NZD"

/-- `cache_key = f"{base}_{target}_{date}"` (line 171), with the date rendered
through `toString`. -/
def cacheKey (d : Nat) : String :=
  base_currency ++ "_" ++ target_currency ++ "_" ++ toString d

/-- Result of the whole date-range loop. -/
inductive FetchLoopResult
  /-- the loop ran to the end date; `rows` is `all_rates` in append order. -/
  | finished (rows : List (Nat × Rate)) (c : Cache)
  /-- the `return pd.DataFrame(columns=[...])` inside the loop fired,
  discarding everything.  Dead for valid HTTP statuses. -/
  | abortedEmpty (c : Cache)
  /-- some day kept retrying past its whole trace: the Python loop is still
  running inside that day. -/
  | hung (day : Nat) (c : Cache)
deriving DecidableEq

/-- The outer `while current_date_obj <= end_date_obj` loop of
`fetch_exchange_rates`, one recursive step per calendar day, threading the
cache and accumulating `all_rates`. -/
def fetchDays (oracle : Nat → List NetResult) :
    Cache → List (Nat × Rate) → List Nat → FetchLoopResult
  | c, acc, [] => .finished acc c
  | c, acc, d :: rest =>
    match processDay c (cacheKey d) (oracle d) with
    | ⟨.success v, c2, _, _⟩ => fetchDays oracle c2 (acc ++ [(d, v)]) rest
    | ⟨.exhausted, c2, _, _⟩ => fetchDays oracle c2 acc rest
    | ⟨.providerError, c2, _, _⟩ => fetchDays oracle c2 acc rest
    | ⟨.aborted, c2, _, _⟩ => .abortedEmpty c2
    | ⟨.outOfTrace, c2, _, _⟩ => .hung d c2

/-- `fetch_exchange_rates(start_date, end_date)` (lines 146-226): iterate the
inclusive day range (empty when `endD < startD`), then sort the accumulated
rows by date as `df.sort_values('Date')` does. -/
def fetch_exchange_rates (oracle : Nat → List NetResult) (c : Cache)
    (startD endD : Nat) : FetchLoopResult :=
  match fetchDays oracle c [] (List.range' startD (endD + 1 - startD)) with
  | .finished rows c2 =>
      .finished (List.insertionSort (fun p q : Nat × Rate => p.1 ≤ q.1) rows) c2
  | other => other

/-- `obj.index.min()` as computed by `asfreq` over the date index. -/
def dmin : List (Nat × Rate) → Nat
  | [] => 0
  | p :: ps => ps.foldl (fun a q => min a q.1) p.1

/-- `obj.index.max()` as computed by `asfreq` over the date index. -/
def dmax : List (Nat × Rate) → Nat
  | [] => 0
  | p :: ps => ps.foldl (fun a q => max a q.1) p.1

/-- The entry with the greatest date in a list, `none` for the empty list. -/
def pickLatest : List (Nat × Rate) → Option (Nat × Rate)
  | [] => none
  | p :: ps =>
    match pickLatest ps with
    | none => some p
    | some q => if q.1 < p.1 then some p else some q

/-- The entry with the greatest date `≤ d`: after reindexing to the daily
range, forward-fill (`ffill`) gives day `d` the value of the greatest original
date at or before `d`. -/
def lastLE (s : List (Nat × Rate)) (d : Nat) : Option (Nat × Rate) :=
  pickLatest (s.filter (fun p => p.1 ≤ d))

/-- The forward-filled rate for day `d`.  The `getD 0` default stands for the
NaN a day before every original point would get; it is unreachable from
`preprocess_data`, whose range starts at the minimum original date. -/
def ffillRate (s : List (Nat × Rate)) (d : Nat) : Rate :=
  ((lastLE s d).map Prod.snd).getD 0

/-- `preprocess_data` (lines 228-243): `df.set_index('Date')`,
`df.asfreq('D').ffill()`, `df.reset_index()`.  On the empty frame that
`fetch_exchange_rates` returns when nothing was fetched, the index is not a
`DatetimeIndex` and `asfreq` raises `TypeError`; the `except` clause logs and
re-raises, so the error propagates to the caller — modelled as `.error`.
On a non-empty frame, `asfreq('D')` reindexes to
`date_range(index.min(), index.max(), freq='D')` and `ffill` carries each
missing day the value of the greatest original date at or before it. -/
def preprocess_data (s : List (Nat × Rate)) : Except String (List (Nat × Rate)) :=
  match s with
  | [] => .error "asfreq requires a DatetimeIndex"
  | _ :: _ =>
    .ok ((List.range (dmax s + 1 - dmin s)).map
      (fun i => (dmin s + i, ffillRate s (dmin s + i))))

/-- One cache operation, for stating the tier-consistency invariant over
arbitrary operation sequences. -/
inductive CacheOp
  | getOp (k : String)
  | setOp (k : String) (v : Rate)

def applyOp (c : Cache) : CacheOp → Cache
  | .getOp k => (get_cached_data c k).2
  | .setOp k v => set_cached_data c k v

/-- Run a sequence of cache operations from the startup state: durable layer
loaded from disk (`load_cache`), fast layer empty. -/
def runOps (file0 : List (String × Rate)) (ops : List CacheOp) : Cache :=
  ops.foldl applyOp ⟨[], file0⟩

/-- Every key visible in the fast layer is visible in the durable layer with
the same value. -/
def tierConsistent (c : Cache) : Prop :=
  ∀ k v, dictGet c.memory k = some v → dictGet c.file k = some v

theorem dictGet_dictSet_self (l : List (String × Rate)) (k : String) (v : Rate) :
    dictGet (dictSet l k v) k = some v := by
  induction l with
  | nil => simp [dictSet, dictGet]
  | cons p ps ih =>
    by_cases h : p.1 = k
    · simp [dictSet, dictGet, h]
    · simp [dictSet, dictGet, h, ih]

theorem dictGet_dictSet_ne (l : List (String × Rate)) (k k2 : String) (v : Rate)
    (h : k2 ≠ k) : dictGet (dictSet l k v) k2 = dictGet l k2 := by
  induction l with
  | nil =>
    simp only [dictSet, dictGet]
    rw [if_neg fun hh => h hh.symm]
  | cons p ps ih =>
    by_cases hp : p.1 = k
    · simp only [dictSet, if_pos hp, dictGet]
      rw [if_neg fun hh => h hh.symm, if_neg (by rw [hp]; exact fun hh => h hh.symm)]
    · simp only [dictSet, if_neg hp, dictGet]
      by_cases hp2 : p.1 = k2
      · rw [if_pos hp2, if_pos hp2]
      · rw [if_neg hp2, if_neg hp2]
        exact ih

theorem mem_keys_dictSet (l : List (String × Rate)) (k : String) (v : Rate) (x : String)
    (hx : x ∈ (dictSet l k v).map Prod.fst) : x = k ∨ x ∈ l.map Prod.fst := by
  induction l with
  | nil => simpa [dictSet] using hx
  | cons p ps ih =>
    by_cases hp : p.1 = k
    · simp only [dictSet, if_pos hp, List.map_cons, List.mem_cons] at hx
      rcases hx with hx | hx
      · exact Or.inl hx
      · exact Or.inr (by simp [hx])
    · simp only [dictSet, if_neg hp, List.map_cons, List.mem_cons] at hx
      rcases hx with hx | hx
      · exact Or.inr (by simp [hx])
      · rcases ih hx with hx | hx
        · exact Or.inl hx
        · exact Or.inr (by simp [hx])

theorem nodup_keys_dictSet (l : List (String × Rate)) (k : String) (v : Rate)
    (h : (l.map Prod.fst).Nodup) : ((dictSet l k v).map Prod.fst).Nodup := by
  induction l with
  | nil => simp [dictSet]
  | cons p ps ih =>
    simp only [List.map_cons, List.nodup_cons] at h
    obtain ⟨hnot, hnd⟩ := h
    by_cases hp : p.1 = k
    · simp only [dictSet, if_pos hp, List.map_cons, List.nodup_cons]
      exact ⟨by rw [← hp]; exact hnot, hnd⟩
    · simp only [dictSet, if_neg hp, List.map_cons, List.nodup_cons]
      refine ⟨?_, ih hnd⟩
      intro hmem
      rcases mem_keys_dictSet ps k v p.1 hmem with h1 | h1
      · exact hp h1
      · exact hnot h1

/-- C8: after `set(k, v)`, `get(k)` returns `v`, and after a second
`set(k, w)` it returns `w` — last write wins in both the in-memory and the
file layer. -/
theorem cache_set_get_last_write_wins (c : Cache) (k : String) (v w : Rate) :
    dictGet (set_cached_data c k v).memory k = some v ∧
    dictGet (set_cached_data c k v).file k = some v ∧
    (get_cached_data (set_cached_data c k v) k).1 = some v ∧
    dictGet (set_cached_data (set_cached_data c k v) k w).memory k = some w ∧
    dictGet (set_cached_data (set_cached_data c k v) k w).file k = some w ∧
    (get_cached_data (set_cached_data (set_cached_data c k v) k w) k).1 = some w := by
  refine ⟨dictGet_dictSet_self _ _ _, dictGet_dictSet_self _ _ _, ?_,
    dictGet_dictSet_self _ _ _, dictGet_dictSet_self _ _ _, ?_⟩
  · simp [get_cached_data, set_cached_data, dictGet_dictSet_self]
  · simp [get_cached_data, set_cached_data, dictGet_dictSet_self]

theorem invariant_step (c : Cache) (op : CacheOp)
    (hc : tierConsistent c) (hm : (c.memory.map Prod.fst).Nodup)
    (hf : (c.file.map Prod.fst).Nodup) :
    tierConsistent (applyOp c op) ∧ ((applyOp c op).memory.map Prod.fst).Nodup ∧
      ((applyOp c op).file.map Prod.fst).Nodup := by
  cases op with
  | setOp k v =>
    refine ⟨?_, nodup_keys_dictSet _ _ _ hm, nodup_keys_dictSet _ _ _ hf⟩
    intro k2 v2 hg
    simp only [applyOp, set_cached_data] at hg ⊢
    by_cases hk : k2 = k
    · subst hk
      rw [dictGet_dictSet_self] at hg
      rw [dictGet_dictSet_self]
      exact hg
    · rw [dictGet_dictSet_ne _ _ _ _ hk] at hg
      rw [dictGet_dictSet_ne _ _ _ _ hk]
      exact hc k2 v2 hg
  | getOp k =>
    simp only [applyOp, get_cached_data]
    cases hmem : dictGet c.memory k with
    | some v => exact ⟨hc, hm, hf⟩
    | none =>
      cases hfile : dictGet c.file k with
      | none => exact ⟨hc, hm, hf⟩
      | some v =>
        refine ⟨?_, nodup_keys_dictSet _ _ _ hm, hf⟩
        intro k2 v2 hg
        simp only at hg
        by_cases hk : k2 = k
        · subst hk
          rw [dictGet_dictSet_self] at hg
          rw [← hg]
          exact hfile
        · rw [dictGet_dictSet_ne _ _ _ _ hk] at hg
          exact hc k2 v2 hg

theorem foldl_invariant (ops : List CacheOp) :
    ∀ c : Cache, tierConsistent c → (c.memory.map Prod.fst).Nodup →
      (c.file.map Prod.fst).Nodup →
      tierConsistent (ops.foldl applyOp c) ∧
        ((ops.foldl applyOp c).memory.map Prod.fst).Nodup ∧
        ((ops.foldl applyOp c).file.map Prod.fst).Nodup := by
  induction ops with
  | nil => exact fun c hc hm hf => ⟨hc, hm, hf⟩
  | cons op rest ih =>
    intro c hc hm hf
    obtain ⟨hc2, hm2, hf2⟩ := invariant_step c op hc hm hf
    exact ih (applyOp c op) hc2 hm2 hf2

/-- C9: starting from an empty fast layer and a durable layer loaded from a
JSON object (unique keys), after any sequence of get and set operations every
key present in the fast layer is present in the durable layer with the same
value, and each layer binds each key at most once. -/
theorem cache_tier_consistency_invariant (ops : List CacheOp)
    (file0 : List (String × Rate)) (h : (file0.map Prod.fst).Nodup) :
    tierConsistent (runOps file0 ops) ∧
    ((runOps file0 ops).memory.map Prod.fst).Nodup ∧
    ((runOps file0 ops).file.map Prod.fst).Nodup := by
  refine foldl_invariant ops ⟨[], file0⟩ ?_ (by simp) h
  intro k v hv
  simp [dictGet] at hv

/-- Witness for C9 at a concrete startup file and operation sequence. -/
theorem cache_tier_consistency_invariant_witness :
    ((([("AUD_NZD_1", (3 : Rate))]).map Prod.fst).Nodup) ∧
    (tierConsistent (runOps [("AUD_NZD_1", 3)]
        [.setOp "AUD_NZD_2" 2, .getOp "AUD_NZD_1"]) ∧
      ((runOps [("AUD_NZD_1", 3)]
        [.setOp "AUD_NZD_2" 2, .getOp "AUD_NZD_1"]).memory.map Prod.fst).Nodup ∧
      ((runOps [("AUD_NZD_1", 3)]
        [.setOp "AUD_NZD_2" 2, .getOp "AUD_NZD_1"]).file.map Prod.fst).Nodup) :=
  ⟨by decide, cache_tier_consistency_invariant _ _ (by decide)⟩

theorem get_cached_data_none (c : Cache) (key : String)
    (h : (get_cached_data c key).1 = none) : get_cached_data c key = (none, c) := by
  cases hm : dictGet c.memory key with
  | some v => simp [get_cached_data, hm] at h
  | none =>
    cases hf : dictGet c.file key with
    | some v => simp [get_cached_data, hm, hf] at h
    | none => simp [get_cached_data, hm, hf]

theorem processDay_miss (c : Cache) (key : String) (trace : List NetResult)
    (h : (get_cached_data c key).1 = none) :
    processDay c key trace = retryLoop key c 0 trace := by
  unfold processDay
  rw [get_cached_data_none c key h]

theorem retryLoop_at_three (key : String) (c : Cache) (t : List NetResult) :
    retryLoop key c 3 t = ⟨.exhausted, c, 0, []⟩ := by
  cases t <;> simp [retryLoop, maxAttempts]

theorem retryLoop_cache_spec (key : String) (c : Cache) :
    ∀ (t : List NetResult) (a : Nat),
      ((retryLoop key c a t).outcome.isSuccess = false ∧
        (retryLoop key c a t).cache = c) ∨
      (∃ v, (retryLoop key c a t).outcome = .success v ∧
        (retryLoop key c a t).cache = set_cached_data c key v) := by
  intro t
  induction t with
  | nil =>
    intro a
    left
    by_cases ha : a < maxAttempts <;>
      simp [retryLoop, ha, Outcome.isSuccess]
  | cons r rest ih =>
    intro a
    by_cases ha : a < maxAttempts
    · cases r with
      | exn =>
        by_cases hb : a + 1 < maxAttempts
        · simpa [retryLoop, ha, hb] using ih (a + 1)
        · simpa [retryLoop, ha, hb] using ih (a + 1)
      | resp st body =>
        by_cases hs : 400 ≤ st ∧ st < 600
        · by_cases hb : a + 1 < maxAttempts
          · simpa [retryLoop, ha, hs, hb] using ih (a + 1)
          · simpa [retryLoop, ha, hs, hb] using ih (a + 1)
        · by_cases hok : st < 400
          · by_cases hsucc : body.success.getD true = true
            · cases hrate : body.rate with
              | some v =>
                right
                exact ⟨v, by simp [retryLoop, ha, hs, hok, hsucc, hrate],
                  by simp [retryLoop, ha, hs, hok, hsucc, hrate]⟩
              | none =>
                simpa [retryLoop, ha, hs, hok, hsucc, hrate] using ih a
            · rw [Bool.not_eq_true] at hsucc
              left
              constructor <;>
                simp [retryLoop, ha, hs, hok, hsucc, Outcome.isSuccess]
          · left
            constructor <;> simp [retryLoop, ha, hs, hok, Outcome.isSuccess]
    · left
      constructor <;> simp [retryLoop, ha, Outcome.isSuccess]

theorem retryLoop_not_aborted (key : String) (c : Cache) :
    ∀ (t : List NetResult) (a : Nat), (∀ r ∈ t, r.wf) →
      (retryLoop key c a t).outcome ≠ .aborted := by
  intro t
  induction t with
  | nil =>
    intro a _
    simp only [retryLoop]
    split <;> simp
  | cons r rest ih =>
    intro a hwf
    have hwf1 : r.wf := hwf r (by simp)
    have hwfr : ∀ x ∈ rest, x.wf := fun x hx => hwf x (by simp [hx])
    by_cases ha : a < maxAttempts
    · cases r with
      | exn =>
        by_cases hb : a + 1 < maxAttempts
        · simpa [retryLoop, ha, hb] using ih (a + 1) hwfr
        · simpa [retryLoop, ha, hb] using ih (a + 1) hwfr
      | resp st body =>
        have hst : st < 600 := hwf1
        by_cases hs : 400 ≤ st ∧ st < 600
        · by_cases hb : a + 1 < maxAttempts
          · simpa [retryLoop, ha, hs, hb] using ih (a + 1) hwfr
          · simpa [retryLoop, ha, hs, hb] using ih (a + 1) hwfr
        · have hok : st < 400 := by omega
          by_cases hsucc : body.success.getD true = true
          · cases hrate : body.rate with
            | some v =>
              simp [retryLoop, ha, hs, hok, hsucc, hrate]
            | none =>
              simpa [retryLoop, ha, hs, hok, hsucc, hrate] using ih a hwfr
          · rw [Bool.not_eq_true] at hsucc
            simp [retryLoop, ha, hs, hok, hsucc]
    · simp [retryLoop, ha]

theorem processDay_not_aborted (c : Cache) (key : String) (trace : List NetResult)
    (hwf : ∀ r ∈ trace, r.wf) : (processDay c key trace).outcome ≠ .aborted := by
  cases hm : dictGet c.memory key with
  | some v => simp [processDay, get_cached_data, hm]
  | none =>
    cases hf : dictGet c.file key with
    | some v => simp [processDay, get_cached_data, hm, hf]
    | none =>
      simpa [processDay, get_cached_data, hm, hf]
        using retryLoop_not_aborted key c trace 0 hwf

theorem processDay_cache_of_failure (c : Cache) (key : String) (trace : List NetResult)
    (h : (processDay c key trace).outcome.isSuccess = false) :
    (processDay c key trace).cache = c := by
  have hmiss : (get_cached_data c key).1 = none := by
    cases hm : dictGet c.memory key with
    | some v => simp [processDay, get_cached_data, hm, Outcome.isSuccess] at h
    | none =>
      cases hf : dictGet c.file key with
      | some v => simp [processDay, get_cached_data, hm, hf, Outcome.isSuccess] at h
      | none => simp [get_cached_data, hm, hf]
  rw [processDay_miss c key trace hmiss] at h ⊢
  rcases retryLoop_cache_spec key c trace 0 with ⟨_, h2⟩ | ⟨v, h1, _⟩
  · exact h2
  · rw [h1] at h
    simp [Outcome.isSuccess] at h

/-- C1: for an uncached date whose network request raises a transport-level
`RequestException` on every attempt, the retry loop makes exactly 3 request
attempts, waiting `backoff_time * 2 ^ i` seconds before the attempt of
0-based index `i` for `i = 1, 2` (strictly increasing backoff before the 2nd
and 3rd attempts), and the day ends with no rate obtainable: the range loop
records a gap, keeps the accumulated rows unchanged and moves on to the next
day. -/
theorem fetch_transport_failure_three_attempts (oracle : Nat → List NetResult)
    (c : Cache) (d : Nat) (acc : List (Nat × Rate)) (rest : List Nat)
    (hmiss : (get_cached_data c (cacheKey d)).1 = none)
    (hexn : ∀ r ∈ oracle d, r = NetResult.exn)
    (hlen : 3 ≤ (oracle d).length) :
    processDay c (cacheKey d) (oracle d) =
      ⟨.exhausted, c, 3, [backoffTime * 2 ^ 1, backoffTime * 2 ^ 2]⟩ ∧
    backoffTime * 2 ^ 1 < backoffTime * 2 ^ 2 ∧
    fetchDays oracle c acc (d :: rest) = fetchDays oracle c acc rest := by
  have hP : processDay c (cacheKey d) (oracle d) =
      ⟨.exhausted, c, 3, [backoffTime * 2 ^ 1, backoffTime * 2 ^ 2]⟩ := by
    rw [processDay_miss _ _ _ hmiss]
    rcases htr : oracle d with _ | ⟨r1, _ | ⟨r2, _ | ⟨r3, tr⟩⟩⟩ <;>
      rw [htr] at hlen <;> simp at hlen
    have h1 : r1 = NetResult.exn := hexn r1 (by simp [htr])
    have h2 : r2 = NetResult.exn := hexn r2 (by simp [htr])
    have h3 : r3 = NetResult.exn := hexn r3 (by simp [htr])
    subst h1 h2 h3
    simp [retryLoop, maxAttempts, backoffTime, retryLoop_at_three]
  refine ⟨hP, by simp [backoffTime], ?_⟩
  simp only [fetchDays]
  rw [hP]

/-- Witness for C1: empty cache, three transport failures on day 0. -/
theorem fetch_transport_failure_three_attempts_witness :
    ((get_cached_data ⟨[], []⟩ (cacheKey 0)).1 = none) ∧
    (∀ r ∈ [NetResult.exn, NetResult.exn, NetResult.exn], r = NetResult.exn) ∧
    3 ≤ ([NetResult.exn, NetResult.exn, NetResult.exn]).length ∧
    (processDay ⟨[], []⟩ (cacheKey 0)
        ((fun _ : Nat => [NetResult.exn, NetResult.exn, NetResult.exn]) 0) =
      ⟨.exhausted, ⟨[], []⟩, 3, [backoffTime * 2 ^ 1, backoffTime * 2 ^ 2]⟩ ∧
    backoffTime * 2 ^ 1 < backoffTime * 2 ^ 2 ∧
    fetchDays (fun _ : Nat => [NetResult.exn, NetResult.exn, NetResult.exn])
        ⟨[], []⟩ [] [0] =
      fetchDays (fun _ : Nat => [NetResult.exn, NetResult.exn, NetResult.exn])
        ⟨[], []⟩ [] []) :=
  ⟨rfl, by simp, by simp,
    fetch_transport_failure_three_attempts
      (fun _ : Nat => [NetResult.exn, NetResult.exn, NetResult.exn])
      ⟨[], []⟩ 0 [] [] rfl (by simp) (by simp)⟩

/-- C2 counterexample: a date whose provider answers HTTP 500 on every call is
NOT settled in 1 attempt: `raise_for_status` raises `HTTPError`, a subclass of
`RequestException`, so the 500 is retried like a transport failure and the
day costs 3 request attempts. -/
theorem hard_status_retried_cex :
    (processDay ⟨[], []⟩ "AUD_NZD_0"
      [.resp 500 ⟨none, none⟩, .resp 500 ⟨none, none⟩, .resp 500 ⟨none, none⟩]).calls
        = 3 ∧
    (processDay ⟨[], []⟩ "AUD_NZD_0"
      [.resp 500 ⟨none, none⟩, .resp 500 ⟨none, none⟩, .resp 500 ⟨none, none⟩]).calls
        ≠ 1 ∧
    (processDay ⟨[], []⟩ "AUD_NZD_0"
      [.resp 500 ⟨none, none⟩, .resp 500 ⟨none, none⟩, .resp 500 ⟨none, none⟩]).outcome
        = .exhausted := by
  refine ⟨rfl, by decide, rfl⟩

/-- C2 (amended): only the explicit provider failure flag (`success: false` in
a well-formed non-error-status response) aborts retries immediately — exactly
1 attempt, no backoff, the day yields no rate.  An HTTP hard-failure status
such as 500 is instead raised by `raise_for_status` and retried like a
transport failure (see the counterexample). -/
theorem provider_error_flag_single_attempt (c : Cache) (key : String) (st : Nat)
    (body : ApiBody) (rest : List NetResult)
    (hmiss : (get_cached_data c key).1 = none)
    (hst : st < 400) (hflag : body.success = some false) :
    processDay c key (.resp st body :: rest) = ⟨.providerError, c, 1, []⟩ := by
  rw [processDay_miss _ _ _ hmiss]
  have hns : ¬ (400 ≤ st ∧ st < 600) := by omega
  simp [retryLoop, maxAttempts, hns, hst, hflag]

/-- Witness for the amended C2: empty cache, one `success: false` response. -/
theorem provider_error_flag_single_attempt_witness :
    ((get_cached_data ⟨[], []⟩ "AUD_NZD_0").1 = none) ∧
    (200 < 400) ∧ ((⟨some false, none⟩ : ApiBody).success = some false) ∧
    processDay ⟨[], []⟩ "AUD_NZD_0" [.resp 200 ⟨some false, none⟩] =
      ⟨.providerError, ⟨[], []⟩, 1, []⟩ :=
  ⟨rfl, by decide, rfl,
    provider_error_flag_single_attempt ⟨[], []⟩ "AUD_NZD_0" 200
      ⟨some false, none⟩ [] rfl (by decide) rfl⟩

/-- C3, the code evaluated at the failing input: a well-formed success
response missing the target rate field does not end the day with a
non-retryable failure.  The `KeyError` is only logged — `attempt` is not
incremented and there is no `break` — so after `n` such responses the loop
has issued `n` fresh network requests and is still running: the retry loop
never terminates on a persistently missing rate field, and none of the four
claimed outcomes occurs. -/
theorem missing_rate_field_retries_unboundedly (n : Nat) (key : String) :
    processDay ⟨[], []⟩ key
      (List.replicate n (.resp 200 ⟨some true, none⟩)) =
      ⟨.outOfTrace, ⟨[], []⟩, n, []⟩ := by
  rw [processDay_miss _ _ _ (by simp [get_cached_data, dictGet])]
  induction n with
  | zero => simp [retryLoop, maxAttempts]
  | succ m ih =>
    rw [List.replicate_succ]
    simp [retryLoop, maxAttempts, ih]

/-- C5: a date whose composite cache key is present in either cache layer is
served from the cache: the rate comes back with zero network calls and no
retry or backoff, whatever the network would have answered. -/
theorem cache_hit_zero_network_calls (c : Cache) (d : Nat)
    (trace : List NetResult) (v : Rate)
    (h : dictGet c.memory (cacheKey d) = some v ∨
      (dictGet c.memory (cacheKey d) = none ∧ dictGet c.file (cacheKey d) = some v)) :
    (processDay c (cacheKey d) trace).outcome = .success v ∧
    (processDay c (cacheKey d) trace).calls = 0 ∧
    (processDay c (cacheKey d) trace).delays = [] := by
  rcases h with h | ⟨h1, h2⟩
  · simp [processDay, get_cached_data, h]
  · simp [processDay, get_cached_data, h1, h2]

/-- Witness for C5: the key of day 0 cached in the fast layer. -/
theorem cache_hit_zero_network_calls_witness :
    (dictGet [("AUD_NZD_0", (2 : Rate))] (cacheKey 0) = some 2 ∨
      (dictGet [("AUD_NZD_0", (2 : Rate))] (cacheKey 0) = none ∧
        dictGet [] (cacheKey 0) = some 2)) ∧
    ((processDay ⟨[("AUD_NZD_0", 2)], []⟩ (cacheKey 0) [.exn]).outcome = .success 2 ∧
    (processDay ⟨[("AUD_NZD_0", 2)], []⟩ (cacheKey 0) [.exn]).calls = 0 ∧
    (processDay ⟨[("AUD_NZD_0", 2)], []⟩ (cacheKey 0) [.exn]).delays = []) :=
  ⟨Or.inl rfl, cache_hit_zero_network_calls ⟨[("AUD_NZD_0", 2)], []⟩ 0 [.exn] 2
    (Or.inl rfl)⟩

/-- C10: no negative caching.  For an uncached day, the only cache write is
the one performed on a successful response with the rate present; any
non-success outcome leaves both cache layers exactly as they were, so a
later run will attempt that day again. -/
theorem failed_day_leaves_cache_unchanged (c : Cache) (key : String)
    (trace : List NetResult) (hmiss : (get_cached_data c key).1 = none) :
    ((processDay c key trace).outcome.isSuccess = false →
      (processDay c key trace).cache = c) ∧
    (∀ v, (processDay c key trace).outcome = .success v →
      (processDay c key trace).cache = set_cached_data c key v) := by
  rw [processDay_miss _ _ _ hmiss]
  rcases retryLoop_cache_spec key c trace 0 with ⟨h1, h2⟩ | ⟨v, h1, h2⟩
  · refine ⟨fun _ => h2, fun w hw => ?_⟩
    rw [hw] at h1
    simp [Outcome.isSuccess] at h1
  · refine ⟨fun hf => ?_, fun w hw => ?_⟩
    · rw [h1] at hf
      simp [Outcome.isSuccess] at hf
    · rw [h1] at hw
      cases hw
      exact h2

/-- Witness for C10: uncached key, one `success: false` response (a failing
day), cache untouched. -/
theorem failed_day_leaves_cache_unchanged_witness :
    ((get_cached_data ⟨[("x", (1 : Rate))], [("x", 1)]⟩ "y").1 = none) ∧
    (((processDay ⟨[("x", 1)], [("x", 1)]⟩ "y"
        [.resp 200 ⟨some false, none⟩]).outcome.isSuccess = false →
      (processDay ⟨[("x", 1)], [("x", 1)]⟩ "y"
        [.resp 200 ⟨some false, none⟩]).cache = ⟨[("x", 1)], [("x", 1)]⟩) ∧
    (∀ v, (processDay ⟨[("x", 1)], [("x", 1)]⟩ "y"
        [.resp 200 ⟨some false, none⟩]).outcome = .success v →
      (processDay ⟨[("x", 1)], [("x", 1)]⟩ "y"
        [.resp 200 ⟨some false, none⟩]).cache =
        set_cached_data ⟨[("x", 1)], [("x", 1)]⟩ "y" v)) :=
  ⟨by decide, failed_day_leaves_cache_unchanged ⟨[("x", 1)], [("x", 1)]⟩ "y"
    [.resp 200 ⟨some false, none⟩] (by decide)⟩

theorem fetchDays_ne_aborted (oracle : Nat → List NetResult) :
    ∀ (days : List Nat) (c : Cache) (acc : List (Nat × Rate)),
      (∀ e ∈ days, ∀ r ∈ oracle e, r.wf) →
      ∀ cc, fetchDays oracle c acc days ≠ .abortedEmpty cc := by
  intro days
  induction days with
  | nil =>
    intro c acc _ cc
    simp [fetchDays]
  | cons d rest ih =>
    intro c acc h cc
    have hd : ∀ r ∈ oracle d, r.wf := h d (by simp)
    have hr : ∀ e ∈ rest, ∀ r ∈ oracle e, r.wf := fun e he => h e (by simp [he])
    have hnab := processDay_not_aborted c (cacheKey d) (oracle d) hd
    rcases hP : processDay c (cacheKey d) (oracle d) with ⟨o, c2, cl, dl⟩
    rw [hP] at hnab
    cases o with
    | success v =>
      simp only [fetchDays, hP]
      exact ih c2 (acc ++ [(d, v)]) hr cc
    | exhausted =>
      simp only [fetchDays, hP]
      exact ih c2 acc hr cc
    | providerError =>
      simp only [fetchDays, hP]
      exact ih c2 acc hr cc
    | aborted => exact absurd rfl hnab
    | outOfTrace =>
      simp [fetchDays, hP]

/-- C4: a day that fails (retries exhausted or hard provider error) is a gap:
the range loop leaves the accumulated rows and the cache untouched and goes
on with the remaining days exactly as if the failed day were absent; and for
valid HTTP traffic the loop never takes the abort-everything branch, so no
single day can discard the whole range. -/
theorem day_failure_skips_day_keeps_acc (oracle : Nat → List NetResult) (c : Cache)
    (acc : List (Nat × Rate)) (d : Nat) (rest : List Nat)
    (hfail : (processDay c (cacheKey d) (oracle d)).outcome = .exhausted ∨
      (processDay c (cacheKey d) (oracle d)).outcome = .providerError)
    (hwf : ∀ e ∈ d :: rest, ∀ r ∈ oracle e, r.wf) :
    fetchDays oracle c acc (d :: rest) = fetchDays oracle c acc rest ∧
    ∀ cc, fetchDays oracle c acc (d :: rest) ≠ .abortedEmpty cc := by
  have hns : (processDay c (cacheKey d) (oracle d)).outcome.isSuccess = false := by
    rcases hfail with h | h <;> rw [h] <;> rfl
  have hc := processDay_cache_of_failure c (cacheKey d) (oracle d) hns
  refine ⟨?_, fetchDays_ne_aborted oracle (d :: rest) c acc hwf⟩
  rcases hP : processDay c (cacheKey d) (oracle d) with ⟨o, c2, cl, dl⟩
  rw [hP] at hc hfail
  simp only at hc
  subst hc
  rcases hfail with h | h <;> simp only at h <;> subst h <;>
    simp only [fetchDays, hP]

/-- Witness for C4: day 0 answers `success: false` once; day 1 succeeds. -/
theorem day_failure_skips_day_keeps_acc_witness :
    ((processDay ⟨[], []⟩ (cacheKey 0)
        ((fun _ : Nat => [NetResult.resp 200 ⟨some false, none⟩]) 0)).outcome =
          .exhausted ∨
      (processDay ⟨[], []⟩ (cacheKey 0)
        ((fun _ : Nat => [NetResult.resp 200 ⟨some false, none⟩]) 0)).outcome =
          .providerError) ∧
    (∀ e ∈ [0, 1], ∀ r ∈ (fun _ : Nat => [NetResult.resp 200 ⟨some false, none⟩]) e,
      r.wf) ∧
    (fetchDays (fun _ : Nat => [NetResult.resp 200 ⟨some false, none⟩])
        ⟨[], []⟩ [] [0, 1] =
      fetchDays (fun _ : Nat => [NetResult.resp 200 ⟨some false, none⟩])
        ⟨[], []⟩ [] [1] ∧
    ∀ cc, fetchDays (fun _ : Nat => [NetResult.resp 200 ⟨some false, none⟩])
        ⟨[], []⟩ [] [0, 1] ≠ .abortedEmpty cc) :=
  ⟨Or.inr rfl, by simp [NetResult.wf],
    day_failure_skips_day_keeps_acc _ ⟨[], []⟩ [] 0 [1] (Or.inr rfl)
      (by simp [NetResult.wf])⟩

theorem foldl_min_of_le (ps : List (Nat × Rate)) :
    ∀ a : Nat, (∀ q ∈ ps, a ≤ q.1) → ps.foldl (fun x q => min x q.1) a = a := by
  induction ps with
  | nil => intro a _; rfl
  | cons q qs ih =>
    intro a h
    simp only [List.foldl_cons]
    rw [min_eq_left (h q (by simp))]
    exact ih a fun p hp => h p (by simp [hp])

theorem foldl_min_le (ps : List (Nat × Rate)) :
    ∀ a : Nat, ps.foldl (fun x q => min x q.1) a ≤ a := by
  induction ps with
  | nil => intro a; exact le_refl a
  | cons q qs ih =>
    intro a
    simp only [List.foldl_cons]
    exact le_trans (ih (min a q.1)) (min_le_left a q.1)

theorem le_foldl_max (ps : List (Nat × Rate)) :
    ∀ a : Nat, a ≤ ps.foldl (fun x q => max x q.1) a := by
  induction ps with
  | nil => intro a; exact le_refl a
  | cons q qs ih =>
    intro a
    simp only [List.foldl_cons]
    exact le_trans (le_max_left a q.1) (ih (max a q.1))

theorem foldl_max_bounds (ps : List (Nat × Rate)) :
    ∀ (a : Nat) (q : Nat × Rate), q ∈ ps → q.1 ≤ ps.foldl (fun x p => max x p.1) a := by
  induction ps with
  | nil => intro a q hq; simp at hq
  | cons p pss ih =>
    intro a q hq
    simp only [List.foldl_cons]
    rcases List.mem_cons.1 hq with rfl | hq
    · exact le_trans (le_max_right a q.1) (le_foldl_max pss (max a q.1))
    · exact ih (max a p.1) q hq

theorem dmin_sorted (p : Nat × Rate) (ps : List (Nat × Rate))
    (h : ∀ q ∈ ps, p.1 < q.1) : dmin (p :: ps) = p.1 :=
  foldl_min_of_le ps p.1 fun q hq => le_of_lt (h q hq)

theorem dmin_le_dmax (p : Nat × Rate) (ps : List (Nat × Rate)) :
    dmin (p :: ps) ≤ dmax (p :: ps) :=
  le_trans (foldl_min_le ps p.1) (le_foldl_max ps p.1)

theorem le_dmax_of_mem (p : Nat × Rate) (ps : List (Nat × Rate)) (q : Nat × Rate)
    (hq : q ∈ p :: ps) : q.1 ≤ dmax (p :: ps) := by
  rcases List.mem_cons.1 hq with hq | hq
  · subst hq; exact le_foldl_max ps q.1
  · exact foldl_max_bounds ps p.1 q hq

theorem pickLatest_mem : ∀ (l : List (Nat × Rate)) (q : Nat × Rate),
    pickLatest l = some q → q ∈ l := by
  intro l
  induction l with
  | nil => intro q h; simp [pickLatest] at h
  | cons p ps ih =>
    intro q h
    cases hp : pickLatest ps with
    | none =>
      simp only [pickLatest, hp] at h
      cases h
      simp
    | some m =>
      simp only [pickLatest, hp] at h
      by_cases hlt : m.1 < p.1
      · rw [if_pos hlt] at h
        cases h
        simp
      · rw [if_neg hlt] at h
        cases h
        exact List.mem_cons.2 (Or.inr (ih _ hp))

theorem pickLatest_ge : ∀ (l : List (Nat × Rate)) (q : Nat × Rate),
    pickLatest l = some q → ∀ p ∈ l, p.1 ≤ q.1 := by
  intro l
  induction l with
  | nil => intro q h; simp [pickLatest] at h
  | cons p ps ih =>
    intro q h x hx
    cases hp : pickLatest ps with
    | none =>
      simp only [pickLatest, hp] at h
      cases h
      have hps : ps = [] := by
        cases ps with
        | nil => rfl
        | cons y ys =>
          cases hyy : pickLatest ys with
          | none => simp [pickLatest, hyy] at hp
          | some m =>
            simp only [pickLatest, hyy] at hp
            by_cases hlt : m.1 < y.1 <;> simp [hlt] at hp
      subst hps
      rcases List.mem_cons.1 hx with rfl | hx
      · exact le_refl _
      · simp at hx
    | some m =>
      simp only [pickLatest, hp] at h
      by_cases hlt : m.1 < p.1
      · rw [if_pos hlt] at h
        cases h
        rcases List.mem_cons.1 hx with rfl | hx
        · exact le_refl _
        · exact le_trans (ih m hp x hx) (le_of_lt hlt)
      · rw [if_neg hlt] at h
        cases h
        rcases List.mem_cons.1 hx with rfl | hx
        · exact Nat.le_of_not_lt hlt
        · exact ih _ hp x hx

theorem pickLatest_of_ne_nil (l : List (Nat × Rate)) (h : l ≠ []) :
    ∃ q, pickLatest l = some q := by
  cases l with
  | nil => exact absurd rfl h
  | cons p ps =>
    cases hp : pickLatest ps with
    | none => exact ⟨p, by simp [pickLatest, hp]⟩
    | some m =>
      by_cases hlt : m.1 < p.1
      · exact ⟨p, by simp [pickLatest, hp, hlt]⟩
      · exact ⟨m, by simp [pickLatest, hp, hlt]⟩

/-- C6: on a non-empty series (strictly increasing dates, as
`fetch_exchange_rates` produces), `preprocess_data` returns a series with
exactly one point per calendar day from the minimum to the maximum input date
inclusive — length `(max - min) + 1`, consecutive days, no gap — and every day
with no original point carries the rate of the nearest preceding original
day (forward-fill only). -/
theorem normalize_gap_free_forward_fill (s : List (Nat × Rate))
    (hne : s ≠ []) (hsort : s.Pairwise (fun p q => p.1 < q.1)) :
    ∃ out, preprocess_data s = .ok out ∧
      out.length = (dmax s - dmin s) + 1 ∧
      out.map Prod.fst = (List.range ((dmax s - dmin s) + 1)).map (fun i => dmin s + i) ∧
      (∀ d, dmin s ≤ d → d ≤ dmax s → (∀ p ∈ s, p.1 ≠ d) →
        ∃ q ∈ s, q.1 < d ∧ (∀ p ∈ s, p.1 < d → p.1 ≤ q.1) ∧ (d, q.2) ∈ out) := by
  obtain ⟨p, ps, rfl⟩ := List.exists_cons_of_ne_nil hne
  have hhead : ∀ q ∈ ps, p.1 < q.1 := (List.pairwise_cons.1 hsort).1
  have hdmin : dmin (p :: ps) = p.1 := dmin_sorted p ps hhead
  have hmm : dmin (p :: ps) ≤ dmax (p :: ps) := dmin_le_dmax p ps
  have hn : dmax (p :: ps) + 1 - dmin (p :: ps) = (dmax (p :: ps) - dmin (p :: ps)) + 1 := by
    omega
  refine ⟨_, rfl, ?_, ?_, ?_⟩
  · simp [List.length_map, List.length_range, hn]
  · simp only [List.map_map, hn]
    rfl
  · intro d hdl hdu hmiss
    have hfilter : p ∈ (p :: ps).filter (fun q => q.1 ≤ d) := by
      simp only [List.mem_filter]
      exact ⟨by simp, by simpa using hdmin ▸ hdl⟩
    have hfne : (p :: ps).filter (fun q => q.1 ≤ d) ≠ [] := by
      intro hemp
      rw [hemp] at hfilter
      simp at hfilter
    obtain ⟨q, hq⟩ := pickLatest_of_ne_nil _ hfne
    have hqmem := pickLatest_mem _ q hq
    have hqs : q ∈ p :: ps := (List.mem_filter.1 hqmem).1
    have hqle : q.1 ≤ d := by simpa using (List.mem_filter.1 hqmem).2
    have hqlt : q.1 < d := lt_of_le_of_ne hqle (hmiss q hqs)
    refine ⟨q, hqs, hqlt, ?_, ?_⟩
    · intro x hx hxd
      exact pickLatest_ge _ q hq x
        (List.mem_filter.2 ⟨hx, by simpa using le_of_lt hxd⟩)
    · have hrate : ffillRate (p :: ps) d = q.2 := by
        simp [ffillRate, lastLE, hq]
      refine List.mem_map.2 ⟨d - dmin (p :: ps), List.mem_range.2 (by omega), ?_⟩
      rw [show dmin (p :: ps) + (d - dmin (p :: ps)) = d from by omega, hrate]

/-- Witness for C6: points on days 0 and 2, day 1 missing. -/
theorem normalize_gap_free_forward_fill_witness :
    (([((0 : Nat), (1 : Rate)), (2, 3)]) ≠ []) ∧
    (([((0 : Nat), (1 : Rate)), (2, 3)]).Pairwise (fun p q => p.1 < q.1)) ∧
    (∃ out, preprocess_data [((0 : Nat), (1 : Rate)), (2, 3)] = .ok out ∧
      out.length = (dmax [((0 : Nat), (1 : Rate)), (2, 3)] -
        dmin [((0 : Nat), (1 : Rate)), (2, 3)]) + 1 ∧
      out.map Prod.fst = (List.range ((dmax [((0 : Nat), (1 : Rate)), (2, 3)] -
        dmin [((0 : Nat), (1 : Rate)), (2, 3)]) + 1)).map
          (fun i => dmin [((0 : Nat), (1 : Rate)), (2, 3)] + i) ∧
      (∀ d, dmin [((0 : Nat), (1 : Rate)), (2, 3)] ≤ d →
        d ≤ dmax [((0 : Nat), (1 : Rate)), (2, 3)] →
        (∀ p ∈ [((0 : Nat), (1 : Rate)), (2, 3)], p.1 ≠ d) →
        ∃ q ∈ [((0 : Nat), (1 : Rate)), (2, 3)], q.1 < d ∧
          (∀ p ∈ [((0 : Nat), (1 : Rate)), (2, 3)], p.1 < d → p.1 ≤ q.1) ∧
          (d, q.2) ∈ out)) :=
  ⟨by decide, by decide,
    normalize_gap_free_forward_fill [((0 : Nat), (1 : Rate)), (2, 3)]
      (by decide) (by decide)⟩

/-- C7: `preprocess_data` fails (the `asfreq` call raises, the `except` clause
logs and re-raises, so the error reaches the caller) exactly when the input
series is empty; a non-empty series (strictly increasing dates) always comes
back as a series, never as an error. -/
theorem normalize_ok_iff_nonempty (s : List (Nat × Rate))
    (hsort : s.Pairwise (fun p q => p.1 < q.1)) :
    (∃ e, preprocess_data s = .error e) ↔ s = [] := by
  cases s with
  | nil => simp [preprocess_data]
  | cons p ps => simp [preprocess_data]

/-- Witness for C7 at the empty series: `preprocess_data` errors. -/
theorem normalize_ok_iff_nonempty_witness :
    (([] : List (Nat × Rate)).Pairwise (fun p q => p.1 < q.1)) ∧
    ((∃ e, preprocess_data ([] : List (Nat × Rate)) = .error e) ↔
      ([] : List (Nat × Rate)) = []) :=
  ⟨by decide, normalize_ok_iff_nonempty [] (by decide)⟩

end ExchangeRateAnalyzer
